import Mathlib

/-!
# kvstore-cm: the ABCI key-value application (`app.go`)

A shallow embedding of the application state machine of `app.go`:
the transaction validator `isValid`, the block lifecycle
(`BeginBlock`, `DeliverTx`, `Commit`), the read path `Query` and the
stateless protocol operations.

Byte slices are lists of bytes.  `bytes.Split` and `bytes.SplitN` are the Go
standard library's `genSplit`, on its single-byte-separator path (the only
separator the application ever passes is `"="`).  The storage engine is an
external collaborator: its committed contents are a finite map from keys to
values, a writable transaction is a map of pending writes, and which calls
the engine answers with an error is a parameter of the model (`Engine`).
-/

namespace Kvstore

/-- A byte. -/
abbrev Byte := UInt8

/-- A Go byte slice (`[]byte`); the nil slice and the empty slice are both `[]`. -/
abbrev Bytes := List Byte

/-- The separator byte `'='` of `[]byte("=")`. -/
def sepByte : Byte := 61

/-! ## `bytes.Split` / `bytes.SplitN` -/

/-- `bytes.IndexByte(s, c)`: the index of the first `c` in `s`, or `-1`. -/
def IndexByte : Bytes → Byte → Int
  | [], _ => -1
  | b :: bs, c =>
    if b = c then 0
    else
      let r := IndexByte bs c
      if r < 0 then -1 else r + 1

/-- `bytes.Count(s, sep)` for a one-byte separator: the number of `c` in `s`. -/
def Count (s : Bytes) (c : Byte) : Nat := s.count c

/-- The loop of `genSplit`, run for at most `k` more separators:
```go
for i < n {
    m := Index(s, sep)
    if m < 0 { break }
    a[i] = s[: m+sepSave : m+sepSave]
    s = s[m+len(sep):]
    i++
}
a[i] = s
return a[:i+1]
```
where `k` counts the iterations still allowed (`n - i`, with `n` as it is after
the `n--` that precedes the loop). -/
def genSplitLoop (sep : Byte) (sepSave : Nat) : Nat → Bytes → List Bytes
  | 0, s => [s]
  | k + 1, s =>
    let m := IndexByte s sep
    if m < 0 then [s]
    else s.take (m.toNat + sepSave) :: genSplitLoop sep sepSave k (s.drop (m.toNat + 1))

/-- Go's `genSplit(s, sep, sepSave, n)` for a one-byte separator `sep`
(so `len(sep) = 1` and the `explode` branch of an empty separator is not
taken). -/
def genSplit (s : Bytes) (sep : Byte) (sepSave : Nat) (n : Int) : List Bytes :=
  if n = 0 then []
  else
    let n₁ : Int := if n < 0 then (Count s sep : Int) + 1 else n
    let n₂ : Int := if n₁ > (s.length : Int) + 1 then (s.length : Int) + 1 else n₁
    genSplitLoop sep sepSave (n₂ - 1).toNat s

/-- `bytes.Split(s, sep)` is `genSplit(s, sep, 0, -1)`. -/
def Split (s : Bytes) (sep : Byte) : List Bytes := genSplit s sep 0 (-1)

/-- `bytes.SplitN(s, sep, n)` is `genSplit(s, sep, 0, n)`. -/
def SplitN (s : Bytes) (sep : Byte) (n : Int) : List Bytes := genSplit s sep 0 n

/-! ## The transaction validator -/

/-- The function `isValid` of `app.go`:
```go
parts := bytes.Split(tx, []byte("="))
return len(parts) == 2
``` -/
def isValid (tx : Bytes) : Bool :=
  let parts := Split tx sepByte
  parts.length == 2

/-! ## The storage engine (external collaborator) -/

/-- The committed contents of the storage engine (`*badger.DB`): the durable
mapping from key to value. -/
abbrev Store := Bytes → Option Bytes

/-- The store with no key. -/
def emptyStore : Store := fun _ => none

/-- A storage transaction (`*badger.Txn`) opened for writing: the entries of
its map `pendingWrites` (key and value, at most one entry per key, the newest
first) and whether it has been discarded already. -/
structure Txn where
  pendingWrites : List (Bytes × Bytes)
  discarded : Bool

/-- Which calls the storage engine answers with an error.  The application
only sees that `Set`, `Commit` or a read returned a non-nil error; when the
engine does so is the engine's business (argument checks such as badger's
`ErrEmptyKey`, size limits, I/O faults), so it is a parameter here.
`getErr` stands for every read error other than `ErrKeyNotFound`. -/
structure Engine where
  setErr : Txn → Bytes → Bytes → Bool
  commitErr : Store → Txn → Bool
  getErr : Store → Bytes → Bool

/-- An engine that never reports an error. -/
def faultFree : Engine :=
  { setErr := fun _ _ _ => false
    commitErr := fun _ _ => false
    getErr := fun _ _ => false }

/-- An engine that refuses the zero-length key, as badger does (`Txn.Set` and
`Txn.Get` return `ErrEmptyKey` when `len(key) == 0`), and reports no other
error. -/
def refusesEmptyKey : Engine :=
  { setErr := fun _ key _ => key.isEmpty
    commitErr := fun _ _ => false
    getErr := fun _ key => key.isEmpty }

/-- What `db.NewTransaction(true)` returns: a writable transaction with no
pending write. -/
def NewTransaction : Txn := { pendingWrites := [], discarded := false }

/-- The value the map with the entries `w` holds for the key `k`, if any. -/
def lookupWrite : List (Bytes × Bytes) → Bytes → Option Bytes
  | [], _ => none
  | (key, value) :: rest, k => if k = key then some value else lookupWrite rest k

/-- The entries of the map after `pendingWrites[key] = value`: an earlier
entry of `key` is replaced. -/
def storeWrite (w : List (Bytes × Bytes)) (key value : Bytes) : List (Bytes × Bytes) :=
  (key, value) :: w.filter (fun e => e.1 != key)

/-- The mapping `m` with `key` set to `value`. -/
def putWrite (m : Bytes → Option Bytes) (key value : Bytes) : Bytes → Option Bytes :=
  fun k => if k = key then some value else m k

/-- A call of `txn.Set(key, value)`: an error when the engine reports one, else the
transaction with the write staged. -/
def Txn.Set (E : Engine) (t : Txn) (key value : Bytes) : Option Txn :=
  if E.setErr t key value then none
  else some { t with pendingWrites := storeWrite t.pendingWrites key value }

/-- The committed contents once the pending writes `w` have landed on `db`:
a key with a pending write takes its value, any other key keeps what it had. -/
def landWrites (w : Bytes → Option Bytes) (db : Store) : Store :=
  fun k => match w k with
    | some v => some v
    | none => db k

/-- A call of `txn.Commit()` against committed contents `db`.  With no pending
write (`len(txn.pendingWrites) == 0`) it returns nil at once: nothing is
written and the transaction is left as it is, still open.  Otherwise: an
error when the engine reports one, else every pending write lands at once
and the transaction is discarded. -/
def Txn.Commit (E : Engine) (db : Store) (t : Txn) : Option (Store × Txn) :=
  if t.pendingWrites.isEmpty then some (db, t)
  else if E.commitErr db t then none
  else some (landWrites (lookupWrite t.pendingWrites) db, { t with discarded := true })

/-- Outcome of the read inside `db.View`: `txn.Get` followed by `item.Value`. -/
inductive GetResult where
  | found (val : Bytes)
  | keyNotFound
  | failed
  deriving DecidableEq

/-- The read-only view of `db.View`: a lookup in the committed contents. -/
def viewGet (E : Engine) (db : Store) (key : Bytes) : GetResult :=
  if E.getErr db key then .failed
  else match db key with
    | some v => .found v
    | none => .keyNotFound

/-! ## The application -/

/-- The struct `App`: the database handle and the transaction of the block
in progress (`nil` before the first `BeginBlock`). -/
structure App where
  db : Store
  onGoingBlock : Option Txn

/-- The constructor `NewApp`. -/
def NewApp (db : Store) : App := { db := db, onGoingBlock := none }

/-- A fatal abort of the process. -/
inductive Abort where
  | panicf (msg : String)
  | nilPointer
  | indexOutOfRange
  deriving DecidableEq

/-- The result of an operation that may abort. -/
abbrev Outcome (α : Type) := Except Abort (App × α)

structure ResponseCheckTx where
  Code : Nat := 0
  deriving DecidableEq

structure ResponseBeginBlock where
  deriving DecidableEq

structure ResponseDeliverTx where
  Code : Nat := 0
  deriving DecidableEq

structure ResponseCommit where
  Data : Bytes := []
  deriving DecidableEq

structure ResponseQuery where
  Code : Nat := 0
  Log : String := ""
  Key : Bytes := []
  Value : Bytes := []
  deriving DecidableEq

/-- The method `App.CheckTx`. -/
def CheckTx (a : App) (tx : Bytes) : App × ResponseCheckTx :=
  let code := 0
  let valid := isValid tx
  let code := if !valid then 1 else code
  (a, { Code := code })

/-- The method `App.BeginBlock`. -/
def BeginBlock (a : App) : App × ResponseBeginBlock :=
  ({ a with onGoingBlock := some NewTransaction }, {})

/-- The method `App.DeliverTx`. -/
def DeliverTx (E : Engine) (a : App) (tx : Bytes) : Outcome ResponseDeliverTx :=
  if !isValid tx then .ok (a, { Code := 1 })
  else
    let parts := SplitN tx sepByte 2
    match parts[0]?, parts[1]? with
    | some key, some value =>
      match a.onGoingBlock with
      | none => .error .nilPointer
      | some t =>
        match t.Set E key value with
        | none => .error (.panicf "error writing to database, unable to execute tx")
        | some t' => .ok ({ a with onGoingBlock := some t' }, { Code := 0 })
    | _, _ => .error .indexOutOfRange

/-- The method `App.Commit`. -/
def Commit (E : Engine) (a : App) : Outcome ResponseCommit :=
  match a.onGoingBlock with
  | none => .error .nilPointer
  | some t =>
    match t.Commit E a.db with
    | none => .error (.panicf "error writing to database, unable to commit block")
    | some (db', t') => .ok ({ db := db', onGoingBlock := some t' }, { Data := [] })

/-- The method `App.Query`. -/
def Query (E : Engine) (a : App) (data : Bytes) : Outcome ResponseQuery :=
  let resp : ResponseQuery := { Key := data }
  match viewGet E a.db data with
  | .failed => .error (.panicf "error reading database, unable to execute query")
  | .keyNotFound => .ok (a, { resp with Log := "key does not exist" })
  | .found val => .ok (a, { resp with Log := "exists", Value := val })

/-- The response of an operation, without the state it leaves. -/
def response {α : Type} (r : Outcome α) : Except Abort α := r.map Prod.snd

/-! ## The operations that only answer -/

structure ResponseEndBlock where
  deriving DecidableEq

structure ResponseInfo where
  deriving DecidableEq

structure ResponseInitChain where
  deriving DecidableEq

structure ResponsePrepareProposal where
  Txs : List Bytes := []
  deriving DecidableEq

/-- The enumeration `ResponseProcessProposal_ProposalStatus`. -/
inductive ProposalStatus where
  | UNKNOWN
  | ACCEPT
  | REJECT
  deriving DecidableEq

structure ResponseProcessProposal where
  Status : ProposalStatus := .UNKNOWN
  deriving DecidableEq

structure ResponseListSnapshots where
  deriving DecidableEq

structure ResponseOfferSnapshot where
  deriving DecidableEq

structure ResponseLoadSnapshotChunk where
  deriving DecidableEq

structure ResponseApplySnapshotChunk where
  deriving DecidableEq

/-- The method `App.EndBlock`: it writes a log line and answers; the request
is not read. -/
def EndBlock (a : App) : App × ResponseEndBlock := (a, {})

/-- The method `App.Info`; the request is not read. -/
def Info (a : App) : App × ResponseInfo := (a, {})

/-- The method `App.PrepareProposal`, on the transactions `proposal.Txs`. -/
def PrepareProposal (a : App) (txs : List Bytes) : App × ResponsePrepareProposal :=
  (a, { Txs := txs })

/-- The method `App.ProcessProposal`; the request is not read. -/
def ProcessProposal (a : App) (_txs : List Bytes) : App × ResponseProcessProposal :=
  (a, { Status := .ACCEPT })

/-- The method `App.InitChain`; the request is not read. -/
def InitChain (a : App) : App × ResponseInitChain := (a, {})

/-- The method `App.ListSnapshots`; the request is not read. -/
def ListSnapshots (a : App) : App × ResponseListSnapshots := (a, {})

/-- The method `App.OfferSnapshot`; the request is not read. -/
def OfferSnapshot (a : App) : App × ResponseOfferSnapshot := (a, {})

/-- The method `App.LoadSnapshotChunk`; the request is not read. -/
def LoadSnapshotChunk (a : App) : App × ResponseLoadSnapshotChunk := (a, {})

/-- The method `App.ApplySnapshotChunk`; the request is not read. -/
def ApplySnapshotChunk (a : App) : App × ResponseApplySnapshotChunk := (a, {})

/-! ## Driving the application through a block -/

/-- `DeliverTx` on each transaction of `txs` in order; stops at the first abort. -/
def deliverAll (E : Engine) : App → List Bytes → Except Abort App
  | a, [] => .ok a
  | a, tx :: txs =>
    match DeliverTx E a tx with
    | .error e => .error e
    | .ok (a', _) => deliverAll E a' txs

/-- `BeginBlock`, then `DeliverTx` on each transaction of `txs`, then `Commit`. -/
def runBlock (E : Engine) (a : App) (txs : List Bytes) : Except Abort App :=
  match deliverAll E (BeginBlock a).1 txs with
  | .error e => .error e
  | .ok a' =>
    match Commit E a' with
    | .error e => .error e
    | .ok (a'', _) => .ok a''

/-- `CheckTx` on each transaction of `txs` in order. -/
def checkAll (a : App) (txs : List Bytes) : App :=
  txs.foldl (fun a tx => (CheckTx a tx).1) a

/-! ## The wire format and the block, in the words of the specification -/

/-- The Go conversion `[]byte(s)` of a string literal of ASCII characters. -/
def bytesOf (s : String) : Bytes := s.toList.map (fun ch => ch.toNat.toUInt8)

/-- Specification: a transaction is well formed when it holds exactly one
separator byte. -/
def wellFormed (tx : Bytes) : Bool := tx.count sepByte == 1

/-- Specification: the key of a transaction is what stands left of the
separator. -/
def txKey (tx : Bytes) : Bytes := tx.takeWhile (fun b => b != sepByte)

/-- Specification: the value of a transaction is what stands right of the
separator. -/
def txValue (tx : Bytes) : Bytes := (tx.dropWhile (fun b => b != sepByte)).drop 1

/-- Specification: the writes of the transactions `txs` laid over the mapping
`m`, in order: a well-formed transaction writes its key to its value (a later
write to a key replaces an earlier one), a malformed one writes nothing. -/
def applyTxs (m : Bytes → Option Bytes) : List Bytes → (Bytes → Option Bytes)
  | [] => m
  | tx :: txs =>
    applyTxs (if wellFormed tx then putWrite m (txKey tx) (txValue tx) else m) txs

/-- The writes a block holding `txs` makes: key to last value written. -/
def blockWrites (txs : List Bytes) : Bytes → Option Bytes := applyTxs (fun _ => none) txs

/-- The entries of the map `pendingWrites` once the transactions `txs` have
been delivered, in order, on a transaction that held the entries `w`. -/
def stagedEntries (w : List (Bytes × Bytes)) : List Bytes → List (Bytes × Bytes)
  | [] => w
  | tx :: txs =>
    stagedEntries (if wellFormed tx then storeWrite w (txKey tx) (txValue tx) else w) txs

/-- The entries a freshly opened block holds once `txs` have been delivered. -/
def blockEntries (txs : List Bytes) : List (Bytes × Bytes) := stagedEntries [] txs

/-- The engine reports no error for any write of the block `txs`, staged in
order on the transaction `t`. -/
def writesAccepted (E : Engine) : Txn → List Bytes → Bool
  | _, [] => true
  | t, tx :: txs =>
    if wellFormed tx then
      !E.setErr t (txKey tx) (txValue tx) &&
        writesAccepted E
          { t with pendingWrites := storeWrite t.pendingWrites (txKey tx) (txValue tx) } txs
    else writesAccepted E t txs

/-! ## Facts about the split -/

theorem IndexByte_nonneg_or (s : Bytes) (c : Byte) :
    IndexByte s c = -1 ∨ 0 ≤ IndexByte s c := by
  induction s with
  | nil => left; rfl
  | cons b bs ih =>
    unfold IndexByte
    by_cases hb : b = c
    · right; simp [hb]
    · simp only [hb, if_false]
      rcases ih with h | h
      · left; simp [h]
      · right
        have : ¬ IndexByte bs c < 0 := not_lt.mpr h
        simp only [this, if_false]
        omega

theorem IndexByte_neg_iff (s : Bytes) (c : Byte) : IndexByte s c < 0 ↔ c ∉ s := by
  induction s with
  | nil => simp [IndexByte]
  | cons b bs ih =>
    unfold IndexByte
    by_cases hb : b = c
    · simp [hb]
    · have hcb : ¬ c = b := fun h => hb h.symm
      simp only [hb, if_false, List.mem_cons, hcb, false_or]
      by_cases hr : IndexByte bs c < 0
      · simp only [hr, if_true]
        constructor
        · intro _; exact ih.mp hr
        · intro _; decide
      · simp only [hr, if_false]
        have h0 : 0 ≤ IndexByte bs c := not_lt.mp hr
        constructor
        · intro h; omega
        · intro h; exact absurd (ih.mpr h) hr

theorem IndexByte_cons_ne {b c : Byte} (s : Bytes) (hb : b ≠ c) (hc : c ∈ s) :
    IndexByte (b :: s) c = IndexByte s c + 1 := by
  have hr : ¬ IndexByte s c < 0 := fun h => (IndexByte_neg_iff s c).mp h hc
  conv_lhs => unfold IndexByte
  simp only [hb, if_false, hr]

theorem genSplitLoop_nil (c : Byte) (k : Nat) : genSplitLoop c 0 k [] = [[]] := by
  cases k <;> simp [genSplitLoop, IndexByte]

theorem genSplitLoop_cons_sep (c : Byte) (k : Nat) (s : Bytes) :
    genSplitLoop c 0 (k + 1) (c :: s) = [] :: genSplitLoop c 0 k s := by
  simp [genSplitLoop, IndexByte]

theorem genSplitLoop_cons_ne {b c : Byte} (k : Nat) (s : Bytes) (hb : b ≠ c) :
    genSplitLoop c 0 (k + 1) (b :: s)
      = (genSplitLoop c 0 (k + 1) s).modifyHead (List.cons b) := by
  by_cases hc : c ∈ s
  · have hr : ¬ IndexByte s c < 0 := fun h => (IndexByte_neg_iff s c).mp h hc
    have h0 : 0 ≤ IndexByte s c := not_lt.mp hr
    have hr' : ¬ IndexByte s c + 1 < 0 := by omega
    have ht : (IndexByte s c + 1).toNat = (IndexByte s c).toNat + 1 := by omega
    simp only [genSplitLoop, hr, hr', if_false, IndexByte_cons_ne s hb hc, ht,
      Nat.add_zero, List.take_succ_cons, List.drop_succ_cons, List.modifyHead_cons]
  · have hr : IndexByte s c < 0 := (IndexByte_neg_iff s c).mpr hc
    have hr' : IndexByte (b :: s) c < 0 := by
      rw [IndexByte_neg_iff]
      simp only [List.mem_cons, not_or]
      exact ⟨fun h => hb h.symm, hc⟩
    simp only [genSplitLoop, hr, hr', if_true, List.modifyHead_cons]

theorem genSplitLoop_zero (c : Byte) (s : Bytes) : genSplitLoop c 0 0 s = [s] := rfl

/-- With enough iterations allowed, the loop of `genSplit` is the split of a
list at every occurrence of the separator. -/
theorem genSplitLoop_eq_splitOn (c : Byte) (s : Bytes) :
    ∀ k, s.count c ≤ k → genSplitLoop c 0 k s = s.splitOn c := by
  induction s with
  | nil => intro k _; rw [genSplitLoop_nil]; rfl
  | cons b bs ih =>
    intro k hk
    by_cases hb : b = c
    · subst hb
      rw [List.count_cons_self] at hk
      obtain ⟨k', rfl⟩ : ∃ k', k = k' + 1 := ⟨k - 1, by omega⟩
      rw [genSplitLoop_cons_sep, ih k' (by omega)]
      simp [List.splitOn, List.splitOnP_cons]
    · have hcnt : (b :: bs).count c = bs.count c := by
        rw [List.count_cons]; simp [hb]
      rw [hcnt] at hk
      have hso : (b :: bs).splitOn c = (bs.splitOn c).modifyHead (List.cons b) := by
        simp [List.splitOn, List.splitOnP_cons, hb]
      cases k with
      | zero =>
        have h0 : bs.count c = 0 := by omega
        have hmem : c ∉ bs := List.count_eq_zero.mp h0
        have := ih 0 (by omega)
        rw [genSplitLoop_zero] at this
        rw [genSplitLoop_zero, hso, ← this]
        rfl
      | succ k' =>
        rw [genSplitLoop_cons_ne k' bs hb, ih (k' + 1) hk, hso]

theorem length_modifyHead_cons (b : Byte) (l : List Bytes) :
    (l.modifyHead (List.cons b)).length = l.length := by
  cases l <;> simp

theorem length_splitOn (c : Byte) (s : Bytes) : (s.splitOn c).length = s.count c + 1 := by
  induction s with
  | nil => rfl
  | cons b bs ih =>
    by_cases hb : b = c
    · subst hb
      have : (b :: bs).splitOn b = [] :: bs.splitOn b := by
        simp [List.splitOn, List.splitOnP_cons]
      rw [this, List.count_cons_self, List.length_cons, ih]
    · have hso : (b :: bs).splitOn c = (bs.splitOn c).modifyHead (List.cons b) := by
        simp [List.splitOn, List.splitOnP_cons, hb]
      have hcnt : (b :: bs).count c = bs.count c := by
        rw [List.count_cons]; simp [hb]
      rw [hso, length_modifyHead_cons, ih, hcnt]

/-- The unbounded split runs the loop once per separator. -/
theorem Split_eq_loop (s : Bytes) (c : Byte) :
    Split s c = genSplitLoop c 0 (s.count c) s := by
  have hle : s.count c ≤ s.length := List.count_le_length c s
  unfold Split genSplit Count
  have h1 : ¬ ((-1 : Int) = 0) := by decide
  have h2 : ((-1 : Int) < 0) := by decide
  have h3 : ¬ ((s.count c : Int) + 1 > (s.length : Int) + 1) := by omega
  simp only [h1, h2, h3, if_true, if_false]
  congr 1
  omega

theorem Split_eq_splitOn (s : Bytes) (c : Byte) : Split s c = s.splitOn c := by
  rw [Split_eq_loop]; exact genSplitLoop_eq_splitOn c s _ (le_refl _)

theorem Split_length (s : Bytes) (c : Byte) : (Split s c).length = s.count c + 1 := by
  rw [Split_eq_splitOn, length_splitOn]

theorem isValid_iff_count (tx : Bytes) : isValid tx = true ↔ tx.count sepByte = 1 := by
  unfold isValid
  simp only [beq_iff_eq, Split_length]
  omega

theorem exists_first_sep (c : Byte) (s : Bytes) (h : c ∈ s) :
    ∃ key rest, s = key ++ c :: rest ∧ c ∉ key := by
  induction s with
  | nil => simp at h
  | cons b bs ih =>
    by_cases hb : b = c
    · exact ⟨[], bs, by simp [hb], by simp⟩
    · have hc : c ∈ bs := by
        rcases List.mem_cons.mp h with h1 | h1
        · exact absurd h1.symm hb
        · exact h1
      obtain ⟨key, rest, hs, hk⟩ := ih hc
      refine ⟨b :: key, rest, by simp [hs], ?_⟩
      simp only [List.mem_cons, not_or]
      exact ⟨fun h => hb h.symm, hk⟩

theorem count_append_sep (c : Byte) (key value : Bytes) :
    (key ++ c :: value).count c = key.count c + value.count c + 1 := by
  rw [List.count_append, List.count_cons_self]; omega

/-- One iteration of the loop cuts at the first separator. -/
theorem genSplitLoop_one (c : Byte) (key rest : Bytes) (hk : c ∉ key) :
    genSplitLoop c 0 1 (key ++ c :: rest) = [key, rest] := by
  induction key with
  | nil => rw [List.nil_append, genSplitLoop_cons_sep, genSplitLoop_zero]
  | cons b bs ih =>
    simp only [List.mem_cons, not_or] at hk
    have hb : b ≠ c := fun h => hk.1 h.symm
    rw [List.cons_append, genSplitLoop_cons_ne 0 _ hb, ih hk.2]
    rfl

theorem SplitN_two (s : Bytes) (c : Byte) (hs : s ≠ []) :
    SplitN s c 2 = genSplitLoop c 0 1 s := by
  have hlen : 1 ≤ s.length := by
    cases s with
    | nil => exact absurd rfl hs
    | cons b bs => simp
  unfold SplitN genSplit
  have h1 : ¬ ((2 : Int) = 0) := by decide
  have h2 : ¬ ((2 : Int) < 0) := by decide
  have h3 : ¬ ((2 : Int) > (s.length : Int) + 1) := by omega
  simp only [h1, h2, h3, if_false]
  rfl

/-- The first-separator split `SplitN(tx, "=", 2)` of a slice that holds a
separator. -/
theorem SplitN_two_first (c : Byte) (key rest : Bytes) (hk : c ∉ key) :
    SplitN (key ++ c :: rest) c 2 = [key, rest] := by
  rw [SplitN_two _ _ (by simp), genSplitLoop_one c key rest hk]

theorem Split_of_parts (c : Byte) (key value : Bytes) (hk : c ∉ key) (hv : c ∉ value) :
    Split (key ++ c :: value) c = [key, value] := by
  have hcnt : (key ++ c :: value).count c = 1 := by
    rw [count_append_sep, List.count_eq_zero.mpr hk, List.count_eq_zero.mpr hv]
  rw [Split_eq_loop, hcnt, genSplitLoop_one c key value hk]

theorem isValid_parts_iff (key value : Bytes) :
    isValid (key ++ sepByte :: value) = true ↔ sepByte ∉ key ∧ sepByte ∉ value := by
  rw [isValid_iff_count, count_append_sep]
  constructor
  · intro h
    exact ⟨List.count_eq_zero.mp (by omega), List.count_eq_zero.mp (by omega)⟩
  · rintro ⟨hk, hv⟩
    rw [List.count_eq_zero.mpr hk, List.count_eq_zero.mpr hv]

/-- A transaction the validator accepts is a key, one separator and a value,
neither of which holds a separator. -/
theorem isValid_decomp (tx : Bytes) (h : isValid tx = true) :
    ∃ key value, tx = key ++ sepByte :: value ∧ sepByte ∉ key ∧ sepByte ∉ value := by
  have hcnt := (isValid_iff_count tx).mp h
  have hmem : sepByte ∈ tx := List.count_pos_iff.mp (by omega)
  obtain ⟨key, value, hs, hk⟩ := exists_first_sep sepByte tx hmem
  refine ⟨key, value, hs, hk, ?_⟩
  rw [hs, count_append_sep] at hcnt
  exact List.count_eq_zero.mp (by omega)

theorem parts_unique (c : Byte) (k₁ v₁ k₂ v₂ : Bytes)
    (h : k₁ ++ c :: v₁ = k₂ ++ c :: v₂) (h₁ : c ∉ k₁) (h₂ : c ∉ k₂) :
    k₁ = k₂ ∧ v₁ = v₂ := by
  have e₁ := genSplitLoop_one c k₁ v₁ h₁
  have e₂ := genSplitLoop_one c k₂ v₂ h₂
  rw [h, e₂] at e₁
  simp only [List.cons.injEq, and_true] at e₁
  exact ⟨e₁.1.symm, e₁.2.symm⟩

theorem takeWhile_first_sep (c : Byte) (key rest : Bytes) (hk : c ∉ key) :
    (key ++ c :: rest).takeWhile (fun b => b != c) = key := by
  induction key with
  | nil => simp
  | cons b bs ih =>
    simp only [List.mem_cons, not_or] at hk
    have hb : (b != c) = true := by simpa using fun h => hk.1 h.symm
    rw [List.cons_append, List.takeWhile_cons, hb, if_pos rfl, ih hk.2]

theorem dropWhile_first_sep (c : Byte) (key rest : Bytes) (hk : c ∉ key) :
    (key ++ c :: rest).dropWhile (fun b => b != c) = c :: rest := by
  induction key with
  | nil => simp
  | cons b bs ih =>
    simp only [List.mem_cons, not_or] at hk
    have hb : (b != c) = true := by simpa using fun h => hk.1 h.symm
    rw [List.cons_append, List.dropWhile_cons, hb, if_pos rfl, ih hk.2]

theorem wellFormed_eq_isValid (tx : Bytes) : wellFormed tx = isValid tx := by
  rw [Bool.eq_iff_iff, isValid_iff_count]
  simp [wellFormed]

/-- What the first-separator split of an accepted transaction returns: the
key and the value of the wire format. -/
theorem SplitN_of_isValid (tx : Bytes) (h : isValid tx = true) :
    SplitN tx sepByte 2 = [txKey tx, txValue tx] ∧ tx = txKey tx ++ sepByte :: txValue tx := by
  obtain ⟨key, value, hs, hk, _⟩ := isValid_decomp tx h
  have h1 : txKey tx = key := by rw [txKey, hs, takeWhile_first_sep _ _ _ hk]
  have h2 : txValue tx = value := by
    rw [txValue, hs, dropWhile_first_sep _ _ _ hk]; rfl
  rw [h1, h2]
  exact ⟨by rw [hs, SplitN_two_first _ _ _ hk], hs⟩

/-! ## The claims about the validator -/

/-- C1: `isValid tx` holds exactly when the unbounded split of `tx` on `'='`
has two parts (the Go split, which is the split of the list at every
separator), that is exactly when `tx` holds one `'='` byte; `"a=b"` is valid,
`"abc"`, `"a=b=c"` and the empty transaction are not. -/
theorem isValid_iff_two_parts (tx : Bytes) :
    (isValid tx = true ↔ (Split tx sepByte).length = 2) ∧
    Split tx sepByte = tx.splitOn sepByte ∧
    (isValid tx = true ↔ tx.count sepByte = 1) ∧
    isValid (bytesOf "a=b") = true ∧ isValid (bytesOf "abc") = false ∧
    isValid (bytesOf "a=b=c") = false ∧ isValid [] = false := by
  refine ⟨?_, Split_eq_splitOn tx sepByte, isValid_iff_count tx, ?_, ?_, ?_, ?_⟩
  · simp [isValid]
  all_goals decide

/-- C9: for a transaction the validator accepts, the first-separator split
of `DeliverTx` (`SplitN` with limit 2) returns the same two parts as the
unbounded split of `isValid`, and neither part holds a `'='`; `"k=v=w"` is
rejected, although its first-separator split is `"k"`, `"v=w"`, and
`DeliverTx` stores nothing for it. -/
theorem split_agreement (tx : Bytes) (h : isValid tx = true) :
    SplitN tx sepByte 2 = Split tx sepByte ∧
    (∃ key value, Split tx sepByte = [key, value] ∧ SplitN tx sepByte 2 = [key, value] ∧
      sepByte ∉ key ∧ sepByte ∉ value) ∧
    isValid (bytesOf "k=v=w") = false ∧
    SplitN (bytesOf "k=v=w") sepByte 2 = [bytesOf "k", bytesOf "v=w"] ∧
    ∀ (E : Engine) (a : App),
      DeliverTx E a (bytesOf "k=v=w") = .ok (a, { Code := 1 }) := by
  obtain ⟨key, value, hs, hk, hv⟩ := isValid_decomp tx h
  have e1 : SplitN tx sepByte 2 = [key, value] := by rw [hs, SplitN_two_first _ _ _ hk]
  have e2 : Split tx sepByte = [key, value] := by rw [hs, Split_of_parts _ _ _ hk hv]
  refine ⟨by rw [e1, e2], ⟨key, value, e2, e1, hk, hv⟩, by decide, by decide, ?_⟩
  intro E a
  rfl

/-- The transaction `"a=b"` is accepted, and both splits cut it into `"a"`
and `"b"`. -/
theorem split_agreement_witness :
    isValid (bytesOf "a=b") = true ∧
    SplitN (bytesOf "a=b") sepByte 2 = Split (bytesOf "a=b") sepByte :=
  ⟨by decide, (split_agreement (bytesOf "a=b") (by decide)).1⟩

/-- C10: the transaction `key ++ "=" ++ value` is accepted exactly when
neither `key` nor `value` holds a `'='`, and an accepted transaction is
`key ++ "=" ++ value` for exactly one pair of a key and a value. -/
theorem wire_format (key value tx : Bytes) :
    (isValid (key ++ bytesOf "=" ++ value) = true ↔ sepByte ∉ key ∧ sepByte ∉ value) ∧
    (isValid tx = true → ∃! p : Bytes × Bytes, tx = p.1 ++ bytesOf "=" ++ p.2) := by
  have hsep : bytesOf "=" = [sepByte] := by decide
  have happ : ∀ k v : Bytes, k ++ [sepByte] ++ v = k ++ sepByte :: v := by
    intro k v; simp
  rw [hsep]
  constructor
  · rw [happ]; exact isValid_parts_iff key value
  · intro h
    obtain ⟨k, v, hs, hk, _⟩ := isValid_decomp tx h
    refine ⟨(k, v), by simpa using hs, ?_⟩
    rintro ⟨k', v'⟩ hp
    simp only [happ] at hp
    have hv' : isValid (k' ++ sepByte :: v') = true := by rw [← hp]; exact h
    have hk' := ((isValid_parts_iff k' v').mp hv').1
    have := parts_unique sepByte k' v' k v (by rw [← hp, ← hs]) hk' hk
    rw [this.1, this.2]

/-! ## Facts about the operations -/

theorem DeliverTx_of_not_isValid (E : Engine) (a : App) (tx : Bytes)
    (h : isValid tx = false) : DeliverTx E a tx = .ok (a, { Code := 1 }) := by
  simp [DeliverTx, h]

theorem DeliverTx_of_isValid (E : Engine) (a : App) (t : Txn) (tx : Bytes)
    (h : isValid tx = true) (ho : a.onGoingBlock = some t) :
    DeliverTx E a tx =
      if E.setErr t (txKey tx) (txValue tx) then
        .error (.panicf "error writing to database, unable to execute tx")
      else
        .ok ({ db := a.db,
               onGoingBlock := some
                 { pendingWrites := storeWrite t.pendingWrites (txKey tx) (txValue tx),
                   discarded := t.discarded } },
             { Code := 0 }) := by
  have hs := (SplitN_of_isValid tx h).1
  unfold DeliverTx
  simp only [h, hs, ho, Txn.Set]
  by_cases he : E.setErr t (txKey tx) (txValue tx) = true
  · simp [he]
  · simp [he]

theorem checkAll_eq (a : App) (txs : List Bytes) : checkAll a txs = a := by
  induction txs with
  | nil => rfl
  | cons tx txs ih => simp [checkAll, CheckTx]

theorem landWrites_putWrite (w : Bytes → Option Bytes) (db : Store) (key value : Bytes) :
    landWrites (putWrite w key value) db = putWrite (landWrites w db) key value := by
  funext k
  by_cases hk : k = key <;> simp [landWrites, putWrite, hk]

theorem landWrites_applyTxs (db : Store) (txs : List Bytes) :
    ∀ w : Bytes → Option Bytes,
      landWrites (applyTxs w txs) db = applyTxs (landWrites w db) txs := by
  induction txs with
  | nil => intro w; rfl
  | cons tx txs ih =>
    intro w
    by_cases hwf : wellFormed tx = true
    · simp only [applyTxs, hwf, if_true]
      rw [ih, landWrites_putWrite]
    · simp only [applyTxs, hwf]
      exact ih w

/-- Landing the writes of a block on the committed contents is applying its
transactions to them. -/
theorem landWrites_blockWrites (db : Store) (txs : List Bytes) :
    landWrites (blockWrites txs) db = applyTxs db txs :=
  landWrites_applyTxs db txs (fun _ => none)

theorem lookupWrite_filter_ne (w : List (Bytes × Bytes)) (key k : Bytes) (hk : k ≠ key) :
    lookupWrite (w.filter (fun e => e.1 != key)) k = lookupWrite w k := by
  induction w with
  | nil => rfl
  | cons e rest ih =>
    obtain ⟨ek, ev⟩ := e
    by_cases he : ek = key
    · have hke : ¬ k = ek := fun h => hk (h.trans he)
      simp [List.filter_cons, he, lookupWrite, hke, ih, hk]
    · by_cases hke : k = ek
      · simp [List.filter_cons, he, lookupWrite, hke]
      · simp [List.filter_cons, he, lookupWrite, hke, ih]

/-- Reading the map after `pendingWrites[key] = value`: `key` holds `value`,
every other key holds what it held. -/
theorem lookupWrite_storeWrite (w : List (Bytes × Bytes)) (key value : Bytes) :
    lookupWrite (storeWrite w key value) = putWrite (lookupWrite w) key value := by
  funext k
  by_cases hk : k = key
  · simp [storeWrite, lookupWrite, putWrite, hk]
  · simp [storeWrite, lookupWrite, putWrite, hk, lookupWrite_filter_ne w key k hk]

theorem lookupWrite_stagedEntries (txs : List Bytes) :
    ∀ w : List (Bytes × Bytes),
      lookupWrite (stagedEntries w txs) = applyTxs (lookupWrite w) txs := by
  induction txs with
  | nil => intro w; rfl
  | cons tx txs ih =>
    intro w
    by_cases hwf : wellFormed tx = true
    · simp only [stagedEntries, applyTxs, hwf, if_true]
      rw [ih, lookupWrite_storeWrite]
    · simp only [stagedEntries, applyTxs, hwf]
      exact ih w

/-- The map a block holds after its deliveries reads as the writes of the
block. -/
theorem lookupWrite_blockEntries (txs : List Bytes) :
    lookupWrite (blockEntries txs) = blockWrites txs :=
  lookupWrite_stagedEntries txs []

theorem applyTxs_untouched (k : Bytes) (txs : List Bytes) :
    ∀ m : Bytes → Option Bytes,
      (∀ tx ∈ txs, wellFormed tx = true → txKey tx ≠ k) → applyTxs m txs k = m k := by
  induction txs with
  | nil => intro m _; rfl
  | cons tx txs ih =>
    intro m h
    have htl : ∀ tx' ∈ txs, wellFormed tx' = true → txKey tx' ≠ k :=
      fun tx' hm => h tx' (List.mem_cons_of_mem _ hm)
    by_cases hwf : wellFormed tx = true
    · have hne : ¬ k = txKey tx := fun e => h tx (List.mem_cons_self _ _) hwf e.symm
      simp only [applyTxs, hwf, if_true]
      rw [ih _ htl]
      simp [putWrite, hne]
    · simp only [applyTxs, hwf]
      exact ih m htl

/-- What delivering the transactions `txs` on an open block does: every write
is staged when the engine accepts them all, and the process aborts at the
first write the engine refuses. -/
theorem deliverAll_eq (E : Engine) (txs : List Bytes) :
    ∀ (a : App) (t : Txn), a.onGoingBlock = some t →
      deliverAll E a txs =
        if writesAccepted E t txs then
          .ok { db := a.db,
                onGoingBlock := some
                  { pendingWrites := stagedEntries t.pendingWrites txs,
                    discarded := t.discarded } }
        else .error (.panicf "error writing to database, unable to execute tx") := by
  induction txs with
  | nil =>
    intro a t ho
    cases a
    simp only at ho
    subst ho
    rfl
  | cons tx txs ih =>
    intro a t ho
    by_cases hwf : wellFormed tx = true
    · have hv : isValid tx = true := by rw [← wellFormed_eq_isValid]; exact hwf
      cases he : E.setErr t (txKey tx) (txValue tx)
      · simp only [deliverAll, DeliverTx_of_isValid E a t tx hv ho, he, writesAccepted, hwf,
          Bool.false_eq_true, if_false, if_true, Bool.not_false, Bool.true_and]
        rw [ih { db := a.db,
                 onGoingBlock := some
                   { pendingWrites := storeWrite t.pendingWrites (txKey tx) (txValue tx),
                     discarded := t.discarded } } _ rfl]
        simp [stagedEntries, hwf]
      · simp [deliverAll, DeliverTx_of_isValid E a t tx hv ho, he, writesAccepted, hwf]
    · have hv : isValid tx = false := by
        rw [← wellFormed_eq_isValid]; simpa using hwf
      simp only [deliverAll, DeliverTx_of_not_isValid E a tx hv, writesAccepted, hwf]
      rw [ih a t ho]
      simp [stagedEntries, hwf]

theorem Query_eq (E : Engine) (a : App) (k : Bytes) :
    Query E a k =
      if E.getErr a.db k then
        .error (.panicf "error reading database, unable to execute query")
      else
        .ok (a, match a.db k with
          | some v => { Code := 0, Log := "exists", Key := k, Value := v }
          | none => { Code := 0, Log := "key does not exist", Key := k, Value := [] }) := by
  unfold Query viewGet
  by_cases he : E.getErr a.db k = true
  · simp [he]
  · cases hk : a.db k <;> simp [he, hk]

/-- The response of `Query` depends on the committed contents only. -/
theorem response_Query_congr (E : Engine) (a b : App) (k : Bytes) (h : a.db = b.db) :
    response (Query E a k) = response (Query E b k) := by
  rw [Query_eq, Query_eq, h]
  by_cases he : E.getErr b.db k = true
  · simp [he, response, Except.map]
  · simp [he, response, Except.map]

theorem landWrites_nil (db : Store) : landWrites (lookupWrite []) db = db := rfl

/-- What `Commit` does on a state that holds a transaction. -/
theorem Commit_eq (E : Engine) (a : App) (t : Txn) (ho : a.onGoingBlock = some t) :
    Commit E a =
      if t.pendingWrites.isEmpty then .ok (a, { Data := [] })
      else if E.commitErr a.db t then
        .error (.panicf "error writing to database, unable to commit block")
      else
        .ok ({ db := landWrites (lookupWrite t.pendingWrites) a.db,
               onGoingBlock := some { pendingWrites := t.pendingWrites, discarded := true } },
             { Data := [] }) := by
  cases a with
  | mk db og =>
    simp only at ho
    subst ho
    obtain ⟨w, d⟩ := t
    cases w with
    | nil => simp [Commit, Txn.Commit]
    | cons e rest =>
      cases he : E.commitErr db { pendingWrites := e :: rest, discarded := d } <;>
        simp [Commit, Txn.Commit, he]

/-- When the engine reports no error, `Commit` returns and the committed
contents are the pending writes laid over what was there. -/
theorem Commit_db (E : Engine) (a : App) (t : Txn) (ho : a.onGoingBlock = some t)
    (hc : E.commitErr a.db t = false) :
    ∃ a', Commit E a = .ok (a', { Data := [] }) ∧
      a'.db = landWrites (lookupWrite t.pendingWrites) a.db := by
  rw [Commit_eq E a t ho]
  by_cases hnil : t.pendingWrites = []
  · have hp : t.pendingWrites.isEmpty = true := by rw [hnil]; rfl
    refine ⟨a, by rw [if_pos hp], ?_⟩
    rw [hnil, landWrites_nil]
  · have hp : ¬ t.pendingWrites.isEmpty = true := fun h => hnil (List.isEmpty_iff.mp h)
    refine ⟨{ db := landWrites (lookupWrite t.pendingWrites) a.db,
              onGoingBlock := some { pendingWrites := t.pendingWrites, discarded := true } },
            ?_, rfl⟩
    rw [if_neg hp, hc]
    rfl

/-- The state after the deliveries of a block whose writes the engine
accepts. -/
theorem deliverAll_block (E : Engine) (a : App) (txs : List Bytes)
    (hw : writesAccepted E NewTransaction txs = true) :
    deliverAll E (BeginBlock a).1 txs =
      .ok { db := a.db,
            onGoingBlock := some { pendingWrites := blockEntries txs, discarded := false } } := by
  have hd := deliverAll_eq E txs (BeginBlock a).1 NewTransaction rfl
  rw [hw] at hd
  exact hd

/-- Committing a block whose writes and whose commit the engine accepts
applies its transactions to the committed contents. -/
theorem Commit_block (E : Engine) (S : Store) (txs : List Bytes)
    (hc : E.commitErr S { pendingWrites := blockEntries txs, discarded := false } = false) :
    ∃ a', Commit E
        { db := S,
          onGoingBlock := some { pendingWrites := blockEntries txs, discarded := false } }
        = .ok (a', { Data := [] }) ∧
      a'.db = applyTxs S txs := by
  obtain ⟨a', h1, h2⟩ := Commit_db E
    { db := S,
      onGoingBlock := some { pendingWrites := blockEntries txs, discarded := false } }
    { pendingWrites := blockEntries txs, discarded := false } rfl hc
  refine ⟨a', h1, ?_⟩
  rw [h2]
  show landWrites (lookupWrite (blockEntries txs)) S = applyTxs S txs
  rw [lookupWrite_blockEntries, landWrites_blockWrites]

theorem runBlock_ok (E : Engine) (a : App) (txs : List Bytes)
    (hw : writesAccepted E NewTransaction txs = true)
    (hc : E.commitErr a.db { pendingWrites := blockEntries txs, discarded := false } = false) :
    ∃ a', runBlock E a txs = .ok a' ∧ a'.db = applyTxs a.db txs := by
  obtain ⟨a', h1, h2⟩ := Commit_block E a.db txs hc
  refine ⟨a', ?_, h2⟩
  unfold runBlock
  rw [deliverAll_block E a txs hw]
  simp only [h1]

/-! ## The claims about `CheckTx` and malformed transactions -/

/-- C4: for a transaction that is not well formed, in every state,
`DeliverTx` returns code 1 without aborting and leaves the application
state, the block in progress and the committed contents, as it was. -/
theorem DeliverTx_malformed (E : Engine) (a : App) (tx : Bytes)
    (h : isValid tx = false) :
    DeliverTx E a tx = .ok (a, { Code := 1 }) ∧ (1 : Nat) ≠ 0 :=
  ⟨DeliverTx_of_not_isValid E a tx h, by decide⟩

/-- The malformed transaction `"bad"` delivered on an open block. -/
theorem DeliverTx_malformed_witness :
    isValid (bytesOf "bad") = false ∧
    DeliverTx refusesEmptyKey (BeginBlock (NewApp emptyStore)).1 (bytesOf "bad")
      = .ok ((BeginBlock (NewApp emptyStore)).1, { Code := 1 }) :=
  ⟨by decide, (DeliverTx_malformed refusesEmptyKey _ (bytesOf "bad") (by decide)).1⟩

/-- C6: `CheckTx` returns code 0 for a transaction `isValid` accepts and code
1 for any other, so the code is 0 exactly when the transaction is well
formed. -/
theorem CheckTx_code (a : App) (tx : Bytes) :
    (CheckTx a tx).2 = { Code := if isValid tx then 0 else 1 } ∧
    ((CheckTx a tx).2.Code = 0 ↔ isValid tx = true) := by
  cases h : isValid tx <;> simp [CheckTx, h]

/-- C7: `CheckTx` on any finite sequence of transactions leaves the
application state as it was, so every later `Query`, `DeliverTx` and
`Commit` does what it would have done without those calls. -/
theorem CheckTx_no_effect (E : Engine) (a : App) (txs : List Bytes) :
    checkAll a txs = a ∧
    (∀ tx, (CheckTx a tx).1 = a) ∧
    (∀ k, Query E (checkAll a txs) k = Query E a k) ∧
    (∀ tx, DeliverTx E (checkAll a txs) tx = DeliverTx E a tx) ∧
    Commit E (checkAll a txs) = Commit E a := by
  rw [checkAll_eq]
  exact ⟨rfl, fun _ => rfl, fun _ => rfl, fun _ => rfl, rfl⟩

/-! ## The claims about the block lifecycle and `Query` -/

/-- C5: a well-formed transaction delivered on an open block, whose write the
storage engine accepts, gets code 0 and stages the one write `key` to
`value`, where `key ++ "=" ++ value` is the transaction (`key` its bytes
before the `'='`, `value` those after it, verbatim): afterwards the map of
pending writes holds `value` for `key` and, for every other key, what it held
before; the committed contents stay as they were. -/
theorem DeliverTx_stages_write (E : Engine) (a : App) (t : Txn) (tx : Bytes)
    (hv : isValid tx = true) (ho : a.onGoingBlock = some t)
    (hacc : ∀ key value, tx = key ++ bytesOf "=" ++ value → E.setErr t key value = false) :
    ∃ key value a' t', key ++ bytesOf "=" ++ value = tx ∧
      key = txKey tx ∧ value = txValue tx ∧
      DeliverTx E a tx = .ok (a', { Code := 0 }) ∧
      a'.db = a.db ∧ a'.onGoingBlock = some t' ∧ t'.discarded = t.discarded ∧
      t'.pendingWrites = (key, value) :: t.pendingWrites.filter (fun e => e.1 != key) ∧
      lookupWrite t'.pendingWrites key = some value ∧
      ∀ k, k ≠ key → lookupWrite t'.pendingWrites k = lookupWrite t.pendingWrites k := by
  have hsep : bytesOf "=" = [sepByte] := by decide
  have hs := (SplitN_of_isValid tx hv).2
  have htx : tx = txKey tx ++ bytesOf "=" ++ txValue tx := by
    rw [hsep]; simpa using hs
  refine ⟨txKey tx, txValue tx,
    { db := a.db,
      onGoingBlock := some
        { pendingWrites := storeWrite t.pendingWrites (txKey tx) (txValue tx),
          discarded := t.discarded } },
    { pendingWrites := storeWrite t.pendingWrites (txKey tx) (txValue tx),
      discarded := t.discarded },
    htx.symm, rfl, rfl, ?_, rfl, rfl, rfl, rfl, ?_, ?_⟩
  · rw [DeliverTx_of_isValid E a t tx hv ho, hacc _ _ htx]
    rfl
  · show lookupWrite (storeWrite t.pendingWrites (txKey tx) (txValue tx)) (txKey tx) = _
    rw [lookupWrite_storeWrite]
    simp [putWrite]
  · intro k hk
    show lookupWrite (storeWrite t.pendingWrites (txKey tx) (txValue tx)) k = _
    rw [lookupWrite_storeWrite]
    simp [putWrite, hk]

/-- The transaction `"k=v"` delivered on a block that already holds the
writes of `"k=old"` and `"j=w"`, with an engine that refuses only the empty
key: code 0, and the map then holds `"v"` for `k` and still `"w"` for `j`,
in two entries. -/
theorem DeliverTx_stages_write_witness :
    (DeliverTx refusesEmptyKey
        { db := emptyStore,
          onGoingBlock := some
            { pendingWrites := [(bytesOf "j", bytesOf "w"), (bytesOf "k", bytesOf "old")],
              discarded := false } }
        (bytesOf "k=v")).toOption.map
      (fun p => (p.2.Code, p.1.onGoingBlock.map (fun t' => t'.pendingWrites)))
      = some (0, some [(bytesOf "k", bytesOf "v"), (bytesOf "j", bytesOf "w")]) ∧
    lookupWrite [(bytesOf "k", bytesOf "v"), (bytesOf "j", bytesOf "w")] (bytesOf "k")
      = some (bytesOf "v") ∧
    lookupWrite [(bytesOf "k", bytesOf "v"), (bytesOf "j", bytesOf "w")] (bytesOf "j")
      = some (bytesOf "w") ∧
    ∃ key value a' t', key ++ bytesOf "=" ++ value = bytesOf "k=v" ∧
      key = txKey (bytesOf "k=v") ∧ value = txValue (bytesOf "k=v") ∧
      DeliverTx refusesEmptyKey
        { db := emptyStore,
          onGoingBlock := some
            { pendingWrites := [(bytesOf "j", bytesOf "w"), (bytesOf "k", bytesOf "old")],
              discarded := false } }
        (bytesOf "k=v") = .ok (a', { Code := 0 }) ∧
      a'.db = emptyStore ∧ a'.onGoingBlock = some t' ∧ t'.discarded = false ∧
      t'.pendingWrites = (key, value) ::
        [(bytesOf "j", bytesOf "w"), (bytesOf "k", bytesOf "old")].filter
          (fun e => e.1 != key) ∧
      lookupWrite t'.pendingWrites key = some value ∧
      ∀ k, k ≠ key → lookupWrite t'.pendingWrites k
        = lookupWrite [(bytesOf "j", bytesOf "w"), (bytesOf "k", bytesOf "old")] k :=
  ⟨by decide, by decide, by decide,
    DeliverTx_stages_write refusesEmptyKey
      { db := emptyStore,
        onGoingBlock := some
          { pendingWrites := [(bytesOf "j", bytesOf "w"), (bytesOf "k", bytesOf "old")],
            discarded := false } }
      { pendingWrites := [(bytesOf "j", bytesOf "w"), (bytesOf "k", bytesOf "old")],
        discarded := false }
      (bytesOf "k=v") (by decide) rfl
      (by
        intro key value h
        cases key with
        | nil =>
          have e₁ : bytesOf "k=v" = [107, 61, 118] := by decide
          have e₂ : bytesOf "=" = [61] := by decide
          rw [e₁, e₂] at h
          simp only [List.nil_append, List.singleton_append, List.cons.injEq] at h
          exact absurd h.1 (by decide)
        | cons b bs => rfl)⟩

/-- C2, as the code has it: when the storage engine accepts every write of
the block and its commit, `BeginBlock`, `DeliverTx` on each transaction of
`txs` in order, then `Commit` ends with the committed contents of before
updated with the write of every well-formed transaction of `txs` in order;
malformed transactions write nothing and a key no transaction of the block
writes keeps its value. -/
theorem block_atomicity (E : Engine) (a : App) (txs : List Bytes)
    (hw : writesAccepted E NewTransaction txs = true)
    (hc : E.commitErr a.db { pendingWrites := blockEntries txs, discarded := false } = false) :
    ∃ a', runBlock E a txs = .ok a' ∧ a'.db = applyTxs a.db txs ∧
      ∀ k, (∀ tx ∈ txs, wellFormed tx = true → txKey tx ≠ k) → a'.db k = a.db k := by
  obtain ⟨a', hr, hdb⟩ := runBlock_ok E a txs hw hc
  refine ⟨a', hr, hdb, fun k hk => ?_⟩
  rw [hdb]
  exact applyTxs_untouched k txs a.db hk

/-- The block `["k1=v1", "k2=v2", "bad"]` on an empty store: afterwards `k1`
and `k2` are queryable with their values, and `bad` is not a key. -/
theorem block_atomicity_witness :
    (∃ a', runBlock refusesEmptyKey (NewApp emptyStore)
        [bytesOf "k1=v1", bytesOf "k2=v2", bytesOf "bad"] = .ok a' ∧
      a'.db = applyTxs emptyStore [bytesOf "k1=v1", bytesOf "k2=v2", bytesOf "bad"] ∧
      ∀ k, (∀ tx ∈ [bytesOf "k1=v1", bytesOf "k2=v2", bytesOf "bad"],
        wellFormed tx = true → txKey tx ≠ k) → a'.db k = emptyStore k) ∧
    (runBlock refusesEmptyKey (NewApp emptyStore)
        [bytesOf "k1=v1", bytesOf "k2=v2", bytesOf "bad"]).toOption.map
      (fun a' => (a'.db (bytesOf "k1"), a'.db (bytesOf "k2"), a'.db (bytesOf "bad")))
      = some (some (bytesOf "v1"), some (bytesOf "v2"), none) ∧
    (runBlock refusesEmptyKey (NewApp emptyStore)
        [bytesOf "k1=v1", bytesOf "k2=v2", bytesOf "bad"]).toOption.map
      (fun a' => (Query refusesEmptyKey a' (bytesOf "k1")).toOption.map Prod.snd)
      = some (some { Log := "exists", Key := bytesOf "k1", Value := bytesOf "v1" }) :=
  ⟨block_atomicity refusesEmptyKey (NewApp emptyStore)
      [bytesOf "k1=v1", bytesOf "k2=v2", bytesOf "bad"] (by decide) (by decide),
    by decide, by decide⟩

/-- C2 as stated fails: the block `["=v"]` holds one well-formed transaction,
yet with a storage engine that refuses the empty key (badger's `ErrEmptyKey`)
`DeliverTx` aborts the process on it, so no committed state with the write
of that transaction is reached. -/
theorem block_atomicity_counterexample :
    isValid (bytesOf "=v") = true ∧
    runBlock refusesEmptyKey (NewApp emptyStore) [bytesOf "=v"]
      = .error (.panicf "error writing to database, unable to execute tx") ∧
    ¬ ∃ a', runBlock refusesEmptyKey (NewApp emptyStore) [bytesOf "=v"] = .ok a' ∧
        a'.db = applyTxs emptyStore [bytesOf "=v"] := by
  have h : runBlock refusesEmptyKey (NewApp emptyStore) [bytesOf "=v"]
      = .error (.panicf "error writing to database, unable to execute tx") := by rfl
  refine ⟨by decide, h, ?_⟩
  rintro ⟨a', ha, _⟩
  rw [h] at ha
  cases ha

/-- C3: while a block is open, after any sequence of delivered transactions,
`Query k` answers what it answered before the block was opened, also when
the block has staged a write to `k`; once the block is committed, `Query k`
answers the value the block wrote to `k` (the engine reporting no error for
the writes, the commit and the read). -/
theorem read_isolation (E : Engine) (a : App) (txs : List Bytes) (k : Bytes)
    (hw : writesAccepted E NewTransaction txs = true) :
    ∃ a₂, deliverAll E (BeginBlock a).1 txs = .ok a₂ ∧
      response (Query E a₂ k) = response (Query E a k) ∧
      ∀ v, blockWrites txs k = some v →
        E.commitErr a.db { pendingWrites := blockEntries txs, discarded := false } = false →
        E.getErr (applyTxs a.db txs) k = false →
        ∃ a₃ rc, Commit E a₂ = .ok (a₃, rc) ∧
          response (Query E a₃ k) = .ok { Log := "exists", Key := k, Value := v } := by
  refine ⟨_, deliverAll_block E a txs hw, response_Query_congr E _ a k rfl, ?_⟩
  intro v hv hc hg
  obtain ⟨a₃, hcm, hdb⟩ := Commit_block E a.db txs hc
  have hk : applyTxs a.db txs k = some v := by
    rw [← landWrites_blockWrites]; simp [landWrites, hv]
  refine ⟨a₃, { Data := [] }, hcm, ?_⟩
  rw [Query_eq, hdb]
  simp [hg, hk, response, Except.map]

/-- On a store where `k` holds `"old"`, a block `["k=new"]` is opened and
delivered: before its commit `Query "k"` answers `"old"`, as before the
block, and after its commit `"new"`. -/
theorem read_isolation_witness :
    ((deliverAll refusesEmptyKey
        (BeginBlock { db := applyTxs emptyStore [bytesOf "k=old"], onGoingBlock := none }).1
        [bytesOf "k=new"]).toOption.map
      (fun a₂ => (Query refusesEmptyKey a₂ (bytesOf "k")).toOption.map Prod.snd)
      = some (some { Log := "exists", Key := bytesOf "k", Value := bytesOf "old" })) ∧
    ((runBlock refusesEmptyKey
        { db := applyTxs emptyStore [bytesOf "k=old"], onGoingBlock := none }
        [bytesOf "k=new"]).toOption.map
      (fun a₃ => (Query refusesEmptyKey a₃ (bytesOf "k")).toOption.map Prod.snd)
      = some (some { Log := "exists", Key := bytesOf "k", Value := bytesOf "new" })) ∧
    ∃ a₂, deliverAll refusesEmptyKey
        (BeginBlock { db := applyTxs emptyStore [bytesOf "k=old"], onGoingBlock := none }).1
        [bytesOf "k=new"] = .ok a₂ ∧
      response (Query refusesEmptyKey a₂ (bytesOf "k")) =
        response (Query refusesEmptyKey
          { db := applyTxs emptyStore [bytesOf "k=old"], onGoingBlock := none } (bytesOf "k")) ∧
      ∀ v, blockWrites [bytesOf "k=new"] (bytesOf "k") = some v →
        refusesEmptyKey.commitErr (applyTxs emptyStore [bytesOf "k=old"])
          { pendingWrites := blockEntries [bytesOf "k=new"], discarded := false } = false →
        refusesEmptyKey.getErr
          (applyTxs (applyTxs emptyStore [bytesOf "k=old"]) [bytesOf "k=new"])
          (bytesOf "k") = false →
        ∃ a₃ rc, Commit refusesEmptyKey a₂ = .ok (a₃, rc) ∧
          response (Query refusesEmptyKey a₃ (bytesOf "k"))
            = .ok { Log := "exists", Key := bytesOf "k", Value := v } :=
  ⟨by decide, by decide,
    read_isolation refusesEmptyKey
      { db := applyTxs emptyStore [bytesOf "k=old"], onGoingBlock := none }
      [bytesOf "k=new"] (bytesOf "k") (by decide)⟩

/-- C8, as the code has it: for every key whose read the storage engine does
not fail, `Query` echoes the key, answers code 0 without aborting, and gives
the committed value with the marker "exists" when the key is present, no
value with the marker "key does not exist" when it is absent. -/
theorem Query_found_or_absent (E : Engine) (a : App) (k : Bytes)
    (h : E.getErr a.db k = false) :
    Query E a k =
      .ok (a, match a.db k with
        | some v => { Code := 0, Log := "exists", Key := k, Value := v }
        | none => { Code := 0, Log := "key does not exist", Key := k, Value := [] }) := by
  rw [Query_eq, h]
  rfl

/-- On a store that holds `x`, `Query "x"` finds it. -/
theorem Query_found_or_absent_witness :
    Query refusesEmptyKey
        { db := applyTxs emptyStore [bytesOf "x=1"], onGoingBlock := none } (bytesOf "x") =
      .ok ({ db := applyTxs emptyStore [bytesOf "x=1"], onGoingBlock := none },
        match applyTxs emptyStore [bytesOf "x=1"] (bytesOf "x") with
        | some v => { Code := 0, Log := "exists", Key := bytesOf "x", Value := v }
        | none => { Code := 0, Log := "key does not exist", Key := bytesOf "x", Value := [] }) :=
  Query_found_or_absent refusesEmptyKey
    { db := applyTxs emptyStore [bytesOf "x=1"], onGoingBlock := none } (bytesOf "x")
    (by decide)

/-- C8 as stated fails: with a storage engine that refuses the empty key
(badger's `ErrEmptyKey`, which is not `ErrKeyNotFound`), `Query` of the
zero-length key aborts the process instead of answering that the key does
not exist. -/
theorem Query_empty_key_aborts :
    emptyStore [] = none ∧
    Query refusesEmptyKey (NewApp emptyStore) []
      = .error (.panicf "error reading database, unable to execute query") :=
  ⟨rfl, rfl⟩

/-! ## More facts about the operations -/

theorem DeliverTx_db (E : Engine) (a a' : App) (tx : Bytes) (r : ResponseDeliverTx)
    (h : DeliverTx E a tx = .ok (a', r)) : a'.db = a.db := by
  cases hv : isValid tx
  · rw [DeliverTx_of_not_isValid E a tx hv] at h
    simp only [Except.ok.injEq, Prod.mk.injEq] at h
    rw [← h.1]
  · cases ho : a.onGoingBlock with
    | none =>
      have hs := (SplitN_of_isValid tx hv).1
      simp [DeliverTx, hv, hs, ho] at h
    | some t =>
      rw [DeliverTx_of_isValid E a t tx hv ho] at h
      cases he : E.setErr t (txKey tx) (txValue tx)
      · simp only [he, Bool.false_eq_true, if_false, Except.ok.injEq, Prod.mk.injEq] at h
        rw [← h.1]
      · simp [he] at h

/-- Delivering transactions never touches the committed contents. -/
theorem deliverAll_db (E : Engine) (txs : List Bytes) :
    ∀ a a₂ : App, deliverAll E a txs = .ok a₂ → a₂.db = a.db := by
  induction txs with
  | nil =>
    intro a a₂ h
    simp only [deliverAll, Except.ok.injEq] at h
    rw [h]
  | cons tx txs ih =>
    intro a a₂ h
    cases hd : DeliverTx E a tx with
    | error e => simp [deliverAll, hd] at h
    | ok p =>
      obtain ⟨a', r⟩ := p
      simp only [deliverAll, hd] at h
      rw [ih a' a₂ h, DeliverTx_db E a a' tx r hd]

/-! ## The claims about the remaining operations -/

/-- C15: `PrepareProposal` answers the transactions of the proposal as they
came: the same sequence, in the same order, nothing added or removed. -/
theorem PrepareProposal_identity (a : App) (txs : List Bytes) :
    (PrepareProposal a txs).2.Txs = txs ∧ (PrepareProposal a txs).1 = a :=
  ⟨rfl, rfl⟩

/-- C17: `EndBlock`, `Info`, `InitChain`, `PrepareProposal`,
`ProcessProposal` and the four snapshot operations leave the application
state, committed contents and block in progress, as it was; so do `CheckTx`
and `Query`, which leaves `BeginBlock`, `DeliverTx` and `Commit` as the only
operations that change it. -/
theorem answering_operations_no_effect (E : Engine) (a : App) (txs : List Bytes)
    (tx k : Bytes) :
    (EndBlock a).1 = a ∧ (Info a).1 = a ∧ (InitChain a).1 = a ∧
    (PrepareProposal a txs).1 = a ∧ (ProcessProposal a txs).1 = a ∧
    (ListSnapshots a).1 = a ∧ (OfferSnapshot a).1 = a ∧
    (LoadSnapshotChunk a).1 = a ∧ (ApplySnapshotChunk a).1 = a ∧
    (CheckTx a tx).1 = a ∧
    (∀ a' r, Query E a k = .ok (a', r) → a' = a) := by
  refine ⟨rfl, rfl, rfl, rfl, rfl, rfl, rfl, rfl, rfl, rfl, ?_⟩
  intro a' r h
  rw [Query_eq] at h
  cases he : E.getErr a.db k
  · simp only [he, Bool.false_eq_true, if_false, Except.ok.injEq, Prod.mk.injEq] at h
    exact h.1.symm
  · simp [he] at h

/-- C18: for a transaction that passes `isValid` the first-separator split
has exactly two parts, so `parts[0]` and `parts[1]` are defined, and
`DeliverTx` never fails on an index, whatever the transaction and the state. -/
theorem DeliverTx_index_in_range (tx : Bytes) :
    (isValid tx = true →
      (SplitN tx sepByte 2).length = 2 ∧
      (SplitN tx sepByte 2)[0]? = some (txKey tx) ∧
      (SplitN tx sepByte 2)[1]? = some (txValue tx)) ∧
    ∀ (E : Engine) (a : App), DeliverTx E a tx ≠ .error .indexOutOfRange := by
  constructor
  · intro hv
    rw [(SplitN_of_isValid tx hv).1]
    exact ⟨rfl, rfl, rfl⟩
  · intro E a
    cases hv : isValid tx
    · rw [DeliverTx_of_not_isValid E a tx hv]
      intro h; cases h
    · cases ho : a.onGoingBlock with
      | none =>
        have hs := (SplitN_of_isValid tx hv).1
        simp [DeliverTx, hv, hs, ho]
      | some t =>
        rw [DeliverTx_of_isValid E a t tx hv ho]
        cases he : E.setErr t (txKey tx) (txValue tx) <;> simp

/-- C11, as the code has it: `Commit` does not clear the handle; after it
returns, `onGoingBlock` still holds the transaction of the block, until the
next `BeginBlock` puts a fresh one in its place.  When the block staged a
write, that transaction has been committed and discarded; when it staged
none, `Commit` does nothing and the state, with the transaction still open,
is as it was. -/
theorem Commit_keeps_handle (E : Engine) (a a' : App) (r : ResponseCommit)
    (h : Commit E a = .ok (a', r)) :
    ∃ t, a.onGoingBlock = some t ∧
      a'.onGoingBlock ≠ none ∧
      (t.pendingWrites ≠ [] →
        a'.onGoingBlock = some { pendingWrites := t.pendingWrites, discarded := true }) ∧
      (t.pendingWrites = [] → a' = a) ∧
      (BeginBlock a').1.onGoingBlock = some NewTransaction := by
  cases ho : a.onGoingBlock with
  | none => simp [Commit, ho] at h
  | some t =>
    rw [Commit_eq E a t ho] at h
    by_cases hnil : t.pendingWrites = []
    · have hp : t.pendingWrites.isEmpty = true := by rw [hnil]; rfl
      rw [if_pos hp] at h
      simp only [Except.ok.injEq, Prod.mk.injEq] at h
      refine ⟨t, rfl, ?_, fun hne => absurd hnil hne, fun _ => h.1.symm, rfl⟩
      rw [← h.1, ho]
      simp
    · have hp : ¬ t.pendingWrites.isEmpty = true := fun h' => hnil (List.isEmpty_iff.mp h')
      rw [if_neg hp] at h
      cases he : E.commitErr a.db t
      · simp only [he, Bool.false_eq_true, if_false, Except.ok.injEq, Prod.mk.injEq] at h
        refine ⟨t, rfl, ?_, fun _ => ?_, fun he' => absurd he' hnil, rfl⟩
        · rw [← h.1]; simp
        · rw [← h.1]
      · simp [he] at h

/-- The commit of a block that holds the one write `x` to `"1"`, on an empty
store: the handle then holds that transaction, discarded. -/
theorem Commit_keeps_handle_witness :
    ∃ t, (some { pendingWrites := [(bytesOf "x", bytesOf "1")], discarded := false }
        : Option Txn) = some t ∧
      (some { pendingWrites := [(bytesOf "x", bytesOf "1")], discarded := true }
        : Option Txn) ≠ none ∧
      (t.pendingWrites ≠ [] →
        (some { pendingWrites := [(bytesOf "x", bytesOf "1")], discarded := true }
          : Option Txn) = some { pendingWrites := t.pendingWrites, discarded := true }) ∧
      (t.pendingWrites = [] →
        ({ db := landWrites (lookupWrite [(bytesOf "x", bytesOf "1")]) emptyStore,
           onGoingBlock := some
             { pendingWrites := [(bytesOf "x", bytesOf "1")], discarded := true } } : App)
        = { db := emptyStore,
            onGoingBlock := some
              { pendingWrites := [(bytesOf "x", bytesOf "1")], discarded := false } }) ∧
      (BeginBlock
        { db := landWrites (lookupWrite [(bytesOf "x", bytesOf "1")]) emptyStore,
          onGoingBlock := some
            { pendingWrites := [(bytesOf "x", bytesOf "1")],
              discarded := true } }).1.onGoingBlock
        = some NewTransaction :=
  Commit_keeps_handle refusesEmptyKey
    { db := emptyStore,
      onGoingBlock := some
        { pendingWrites := [(bytesOf "x", bytesOf "1")], discarded := false } }
    { db := landWrites (lookupWrite [(bytesOf "x", bytesOf "1")]) emptyStore,
      onGoingBlock := some
        { pendingWrites := [(bytesOf "x", bytesOf "1")], discarded := true } }
    { Data := [] } rfl

/-- C11 as stated fails: after the block `["x=1"]` is committed on an empty
store the handle `onGoingBlock` is not nil, it still holds the transaction of
that block (discarded, with its write); and after the block `["bad"]`, which
stages no write, it holds a transaction that is not discarded: a block
transaction is still open. -/
theorem Commit_clears_handle_counterexample :
    (runBlock refusesEmptyKey (NewApp emptyStore) [bytesOf "x=1"]).toOption.map
        (fun a' => a'.onGoingBlock.isSome) = some true ∧
    (runBlock refusesEmptyKey (NewApp emptyStore) [bytesOf "x=1"]).toOption.map
        (fun a' => a'.onGoingBlock.map (fun t => (t.discarded, t.pendingWrites)))
      = some (some (true, [(bytesOf "x", bytesOf "1")])) ∧
    (runBlock refusesEmptyKey (NewApp emptyStore) [bytesOf "bad"]).toOption.map
        (fun a' => a'.onGoingBlock.map (fun t => (t.discarded, t.pendingWrites)))
      = some (some (false, [])) :=
  ⟨by decide, by decide, by decide⟩

/-- C13: `Query` leaves the application state as it was, so the same query
asked again answers the same, also when transactions are delivered on the
open block in between. -/
theorem Query_idempotent (E : Engine) (a : App) (k : Bytes) :
    (∀ a' r, Query E a k = .ok (a', r) → a' = a ∧ Query E a' k = .ok (a', r)) ∧
    (∀ txs a₂, deliverAll E a txs = .ok a₂ →
      response (Query E a₂ k) = response (Query E a k)) := by
  constructor
  · intro a' r h
    have ha : a' = a := by
      have h' := h
      rw [Query_eq] at h'
      cases he : E.getErr a.db k
      · simp only [he, Bool.false_eq_true, if_false, Except.ok.injEq, Prod.mk.injEq] at h'
        exact h'.1.symm
      · simp [he] at h'
    exact ⟨ha, by rw [ha]; rw [ha] at h; exact h⟩
  · intro txs a₂ h
    exact response_Query_congr E a₂ a k (deliverAll_db E txs a a₂ h)

/-- C16: on an open block, the storage engine accepting the write,
`DeliverTx` returns without aborting and with the code `CheckTx` returns for
the same transaction: 0 exactly when the transaction is well formed. -/
theorem CheckTx_DeliverTx_same_code (E : Engine) (a : App) (t : Txn) (tx : Bytes)
    (ho : a.onGoingBlock = some t)
    (hacc : ∀ key value, tx = key ++ bytesOf "=" ++ value → E.setErr t key value = false) :
    ∃ a' r, DeliverTx E a tx = .ok (a', r) ∧ r.Code = (CheckTx a tx).2.Code ∧
      (r.Code = 0 ↔ isValid tx = true) := by
  cases hv : isValid tx
  · exact ⟨a, { Code := 1 }, DeliverTx_of_not_isValid E a tx hv, by simp [CheckTx, hv],
      by simp⟩
  · have hsep : bytesOf "=" = [sepByte] := by decide
    have hs := (SplitN_of_isValid tx hv).2
    have htx : tx = txKey tx ++ bytesOf "=" ++ txValue tx := by
      rw [hsep]; simpa using hs
    refine ⟨{ db := a.db,
              onGoingBlock := some
                { pendingWrites := storeWrite t.pendingWrites (txKey tx) (txValue tx),
                  discarded := t.discarded } },
            { Code := 0 }, ?_, by simp [CheckTx, hv], by simp⟩
    rw [DeliverTx_of_isValid E a t tx hv ho, hacc _ _ htx]
    rfl

/-- The transaction `"k=v"` checked and delivered on a freshly opened block. -/
theorem CheckTx_DeliverTx_same_code_witness :
    ∃ a' r, DeliverTx faultFree (BeginBlock (NewApp emptyStore)).1 (bytesOf "k=v")
        = .ok (a', r) ∧
      r.Code = (CheckTx (BeginBlock (NewApp emptyStore)).1 (bytesOf "k=v")).2.Code ∧
      (r.Code = 0 ↔ isValid (bytesOf "k=v") = true) :=
  CheckTx_DeliverTx_same_code faultFree (BeginBlock (NewApp emptyStore)).1 NewTransaction
    (bytesOf "k=v") rfl (fun _ _ _ => rfl)

/-- C12: on an empty store, with a storage engine that reports no error for
the write of `x`, the commit and the two reads: `BeginBlock`, then
`DeliverTx "x=1"` returns code 0, `DeliverTx "y"` returns code 1, `Commit`
returns, `Query "x"` answers "exists" with the value `"1"` and `Query "y"`
answers "key does not exist". -/
theorem end_to_end (E : Engine)
    (hs : E.setErr NewTransaction (bytesOf "x") (bytesOf "1") = false)
    (hc : E.commitErr emptyStore
      { pendingWrites := [(bytesOf "x", bytesOf "1")], discarded := false } = false)
    (hx : E.getErr (applyTxs emptyStore [bytesOf "x=1", bytesOf "y"]) (bytesOf "x") = false)
    (hy : E.getErr (applyTxs emptyStore [bytesOf "x=1", bytesOf "y"]) (bytesOf "y") = false) :
    ∃ a₂ a₃ a₄ rc,
      DeliverTx E (BeginBlock (NewApp emptyStore)).1 (bytesOf "x=1") = .ok (a₂, { Code := 0 }) ∧
      DeliverTx E a₂ (bytesOf "y") = .ok (a₃, { Code := 1 }) ∧
      Commit E a₃ = .ok (a₄, rc) ∧
      response (Query E a₄ (bytesOf "x"))
        = .ok { Log := "exists", Key := bytesOf "x", Value := bytesOf "1" } ∧
      response (Query E a₄ (bytesOf "y"))
        = .ok { Log := "key does not exist", Key := bytesOf "y" } := by
  have hv : isValid (bytesOf "x=1") = true := by decide
  have hk : txKey (bytesOf "x=1") = bytesOf "x" := by decide
  have hval : txValue (bytesOf "x=1") = bytesOf "1" := by decide
  have hen : blockEntries [bytesOf "x=1", bytesOf "y"] = [(bytesOf "x", bytesOf "1")] := by
    decide
  have hc' : E.commitErr emptyStore
      { pendingWrites := blockEntries [bytesOf "x=1", bytesOf "y"], discarded := false }
      = false := by rw [hen]; exact hc
  obtain ⟨a₄, hcm, hdb⟩ := Commit_block E emptyStore [bytesOf "x=1", bytesOf "y"] hc'
  rw [hen] at hcm
  have hfx : applyTxs emptyStore [bytesOf "x=1", bytesOf "y"] (bytesOf "x")
      = some (bytesOf "1") := by decide
  have hfy : applyTxs emptyStore [bytesOf "x=1", bytesOf "y"] (bytesOf "y") = none := by
    decide
  refine ⟨{ db := emptyStore,
            onGoingBlock := some
              { pendingWrites := [(bytesOf "x", bytesOf "1")], discarded := false } },
          { db := emptyStore,
            onGoingBlock := some
              { pendingWrites := [(bytesOf "x", bytesOf "1")], discarded := false } },
          a₄, { Data := [] }, ?_, ?_, hcm, ?_, ?_⟩
  · rw [DeliverTx_of_isValid E _ NewTransaction _ hv rfl, hk, hval, hs]
    rfl
  · exact DeliverTx_of_not_isValid E _ _ (by decide)
  · rw [Query_eq, hdb]
    simp [hx, hfx, response, Except.map]
  · rw [Query_eq, hdb]
    simp [hy, hfy, response, Except.map]

/-- The scenario with an engine that refuses only the empty key. -/
theorem end_to_end_witness :
    ∃ a₂ a₃ a₄ rc,
      DeliverTx refusesEmptyKey (BeginBlock (NewApp emptyStore)).1 (bytesOf "x=1")
        = .ok (a₂, { Code := 0 }) ∧
      DeliverTx refusesEmptyKey a₂ (bytesOf "y") = .ok (a₃, { Code := 1 }) ∧
      Commit refusesEmptyKey a₃ = .ok (a₄, rc) ∧
      response (Query refusesEmptyKey a₄ (bytesOf "x"))
        = .ok { Log := "exists", Key := bytesOf "x", Value := bytesOf "1" } ∧
      response (Query refusesEmptyKey a₄ (bytesOf "y"))
        = .ok { Log := "key does not exist", Key := bytesOf "y" } :=
  end_to_end refusesEmptyKey (by decide) (by decide) (by decide) (by decide)

/-- C14 at the transactions with an empty key: `"=v"` and `"="` pass
`isValid` and `CheckTx`, yet with a storage engine that refuses the empty
key (badger's `ErrEmptyKey`) `DeliverTx` on an open block reaches the
storage-write error branch and aborts the process; `"k="`, with an empty
value, is delivered with code 0. -/
theorem DeliverTx_empty_key_aborts :
    isValid (bytesOf "=v") = true ∧ isValid (bytesOf "=") = true ∧
    (CheckTx (BeginBlock (NewApp emptyStore)).1 (bytesOf "=v")).2.Code = 0 ∧
    SplitN (bytesOf "=v") sepByte 2 = [[], bytesOf "v"] ∧
    DeliverTx refusesEmptyKey (BeginBlock (NewApp emptyStore)).1 (bytesOf "=v")
      = .error (.panicf "error writing to database, unable to execute tx") ∧
    DeliverTx refusesEmptyKey (BeginBlock (NewApp emptyStore)).1 (bytesOf "=")
      = .error (.panicf "error writing to database, unable to execute tx") ∧
    response (DeliverTx refusesEmptyKey (BeginBlock (NewApp emptyStore)).1 (bytesOf "k="))
      = .ok { Code := 0 } :=
  ⟨by decide, by decide, by decide, by decide, rfl, rfl, rfl⟩

/-- C19: `BeginBlock` puts a fresh transaction with no pending write in
place of whatever was there and leaves the committed contents as they were;
when it is called on a block that is still open, the writes delivered to that
block are dropped: `Query` answers as before that block, and the commit of
the new block persists the writes of the new block only. -/
theorem BeginBlock_fresh (E : Engine) (a : App) (txs₁ txs₂ : List Bytes)
    (hw₁ : writesAccepted E NewTransaction txs₁ = true)
    (hw₂ : writesAccepted E NewTransaction txs₂ = true)
    (hc : E.commitErr a.db { pendingWrites := blockEntries txs₂, discarded := false } = false) :
    (BeginBlock a).1 = { db := a.db, onGoingBlock := some NewTransaction } ∧
    ∃ a₂, deliverAll E (BeginBlock a).1 txs₁ = .ok a₂ ∧
      (BeginBlock a₂).1 = (BeginBlock a).1 ∧
      (∀ k, response (Query E (BeginBlock a₂).1 k) = response (Query E a k)) ∧
      ∃ a₄, runBlock E a₂ txs₂ = .ok a₄ ∧ a₄.db = applyTxs a.db txs₂ ∧
        ∀ k, blockWrites txs₂ k = none → a₄.db k = a.db k := by
  refine ⟨rfl, _, deliverAll_block E a txs₁ hw₁, rfl,
    fun k => response_Query_congr E _ a k rfl, ?_⟩
  obtain ⟨a₄, hr, hdb⟩ := runBlock_ok E
    { db := a.db,
      onGoingBlock := some { pendingWrites := blockEntries txs₁, discarded := false } }
    txs₂ hw₂ hc
  refine ⟨a₄, hr, hdb, ?_⟩
  intro k hk
  have hdb' : a₄.db = applyTxs a.db txs₂ := hdb
  rw [hdb', ← landWrites_blockWrites]
  simp [landWrites, hk]

/-- A block `["lost=1"]` is opened and delivered but never committed; a second
`BeginBlock` follows, and the block `["kept=2"]` is delivered and committed:
`kept` is stored, `lost` is not. -/
theorem BeginBlock_fresh_witness :
    ((deliverAll refusesEmptyKey (BeginBlock (NewApp emptyStore)).1
        [bytesOf "lost=1"]).toOption.bind
      (fun a₂ => (runBlock refusesEmptyKey a₂ [bytesOf "kept=2"]).toOption)).map
      (fun a₄ => (a₄.db (bytesOf "lost"), a₄.db (bytesOf "kept")))
      = some (none, some (bytesOf "2")) ∧
    ((BeginBlock (NewApp emptyStore)).1
        = { db := (NewApp emptyStore).db, onGoingBlock := some NewTransaction } ∧
      ∃ a₂, deliverAll refusesEmptyKey (BeginBlock (NewApp emptyStore)).1 [bytesOf "lost=1"]
          = .ok a₂ ∧
        (BeginBlock a₂).1 = (BeginBlock (NewApp emptyStore)).1 ∧
        (∀ k, response (Query refusesEmptyKey (BeginBlock a₂).1 k)
          = response (Query refusesEmptyKey (NewApp emptyStore) k)) ∧
        ∃ a₄, runBlock refusesEmptyKey a₂ [bytesOf "kept=2"] = .ok a₄ ∧
          a₄.db = applyTxs (NewApp emptyStore).db [bytesOf "kept=2"] ∧
          ∀ k, blockWrites [bytesOf "kept=2"] k = none →
            a₄.db k = (NewApp emptyStore).db k) :=
  ⟨by decide,
    BeginBlock_fresh refusesEmptyKey (NewApp emptyStore) [bytesOf "lost=1"]
      [bytesOf "kept=2"] (by decide) (by decide) (by decide)⟩

end Kvstore
